import Mathlib

/-!
Verification of the local blockchain ledger (blockchain/local_chain.py).

The development shallowly embeds the ledger code: payloads are JSON-like
values, blocks are records with the fields the Python dictionaries carry
(optional where the validator tolerates absence), and the external
cryptographic primitives (hashlib.sha256 hex digests, RSA-PSS sign and
verify from the cryptography package) are abstract function parameters
collected in a `Crypto` environment.  Everything written by the
repository itself (merkle root, digest payload assembly, mining loop,
block construction, validation, persistence bootstrap, replacement,
recent slice) is translated directly from the source.
-/

namespace LocalChain

/-- JSON-like payload values, the shape of the dictionaries the ledger
stores: null, booleans, integers, strings, arrays, and objects given as
insertion-ordered key-value lists (Python dict). -/
inductive Json where
  | null : Json
  | bool : Bool → Json
  | num : Int → Json
  | str : String → Json
  | arr : List Json → Json
  | obj : List (String × Json) → Json

/-- Decimal digit character, as Python str() renders it. -/
def digitOf (d : Nat) : Char := Char.ofNat (48 + d)

/-- Fuel-driven digit expansion (structural recursion so that closed
terms reduce inside the kernel; the fuel n+1 always suffices). -/
def natDigitsAux : Nat → Nat → List Char
  | 0, _ => []
  | fuel + 1, n =>
    if n < 10 then [digitOf n]
    else natDigitsAux fuel (n / 10) ++ [digitOf (n % 10)]

/-- Decimal digit list of a natural number (most significant first),
modelling Python str() on a nonnegative int. -/
def natDigits (n : Nat) : List Char := natDigitsAux (n + 1) n

/-- Decimal string of a natural number. -/
def natStr (n : Nat) : String := ⟨natDigits n⟩

/-- Python str() on an int (used by the f-strings building hash
payloads): optional minus sign followed by the decimal digits. -/
def pyStr (i : Int) : String :=
  if i < 0 then "-" ++ natStr i.natAbs else natStr i.toNat

/-- JSON string quoting as json.dumps renders it (quotes and
backslashes escaped; payload strings are assumed to need no further
escapes). -/
def escChar (c : Char) : String :=
  if c = '"' ∨ c = '\\' then "\\" ++ String.singleton c else String.singleton c

/-- Quoted JSON string literal. -/
def quoteStr (s : String) : String :=
  "\"" ++ String.join (s.data.map escChar) ++ "\""

/-- Lexicographic comparison of character lists by code point, the
order Python uses to compare strings when sorting dict keys. -/
def lexLe : List Char → List Char → Bool
  | [], _ => true
  | _ :: _, [] => false
  | a :: as, b :: bs =>
    if a.toNat < b.toNat then true
    else if b.toNat < a.toNat then false
    else lexLe as bs

/-- String comparison by code points. -/
def strLeb (a b : String) : Bool := lexLe a.data b.data

lemma lexLe_total : ∀ as bs : List Char, lexLe as bs = true ∨ lexLe bs as = true := by
  intro as
  induction as with
  | nil => intro bs; left; rfl
  | cons a as ih =>
    intro bs
    cases bs with
    | nil => right; rfl
    | cons b bs =>
      by_cases h1 : a.toNat < b.toNat
      · left; simp [lexLe, h1]
      · by_cases h2 : b.toNat < a.toNat
        · right; simp [lexLe, h2]
        · cases ih bs with
          | inl h => left; simp [lexLe, h1, h2, h]
          | inr h => right; simp [lexLe, h1, h2, h]

lemma lexLe_trans : ∀ as bs cs : List Char,
    lexLe as bs = true → lexLe bs cs = true → lexLe as cs = true := by
  intro as
  induction as with
  | nil => intro bs cs _ _; rfl
  | cons a as ih =>
    intro bs cs h1 h2
    cases bs with
    | nil => simp [lexLe] at h1
    | cons b bs =>
      cases cs with
      | nil => simp [lexLe] at h2
      | cons c cs =>
        simp only [lexLe] at h1 h2 ⊢
        by_cases hab : a.toNat < b.toNat
        · by_cases hbc : b.toNat < c.toNat
          · simp only [show a.toNat < c.toNat from by omega, if_true]
          · by_cases hcb : c.toNat < b.toNat
            · simp [hbc, hcb] at h2
            · simp only [show a.toNat < c.toNat from by omega, if_true]
        · by_cases hba : b.toNat < a.toNat
          · simp [hab, hba] at h1
          · simp only [hab, hba, if_false] at h1
            by_cases hbc : b.toNat < c.toNat
            · simp only [show a.toNat < c.toNat from by omega, if_true]
            · by_cases hcb : c.toNat < b.toNat
              · simp [hbc, hcb] at h2
              · simp only [hbc, hcb, if_false] at h2
                simp only [show ¬ a.toNat < c.toNat from by omega,
                  show ¬ c.toNat < a.toNat from by omega, if_false]
                exact ih bs cs h1 h2

lemma char_toNat_inj {a b : Char} (h : a.toNat = b.toNat) : a = b :=
  Char.eq_of_val_eq (UInt32.ext h)

lemma lexLe_antisymm : ∀ as bs : List Char,
    lexLe as bs = true → lexLe bs as = true → as = bs := by
  intro as
  induction as with
  | nil =>
    intro bs _ h2
    cases bs with
    | nil => rfl
    | cons b bs => simp [lexLe] at h2
  | cons a as ih =>
    intro bs h1 h2
    cases bs with
    | nil => simp [lexLe] at h1
    | cons b bs =>
      simp only [lexLe] at h1 h2
      by_cases hab : a.toNat < b.toNat
      · have hba : ¬ b.toNat < a.toNat := by omega
        simp [hba, hab] at h2
      · by_cases hba : b.toNat < a.toNat
        · simp [hab, hba] at h1
        · simp only [hab, hba, if_false] at h1 h2
          rw [char_toNat_inj (show a.toNat = b.toNat from by omega), ih bs h1 h2]

/-- Key order used by json.dumps(..., sort_keys=True): compare the keys
of two entries by code point. -/
def keyLe (p q : String × Json) : Prop := strLeb p.1 q.1 = true

/-- Strict key order on entries, used to state uniqueness of sorted
entry lists. -/
def keyLt (p q : String × Json) : Prop := keyLe p q ∧ p.1 ≠ q.1

instance : DecidableRel keyLe := fun p q =>
  inferInstanceAs (Decidable (strLeb p.1 q.1 = true))

instance : IsTotal (String × Json) keyLe := ⟨fun a b => lexLe_total a.1.data b.1.data⟩

instance : IsTrans (String × Json) keyLe :=
  ⟨fun _ _ _ h h' => lexLe_trans _ _ _ h h'⟩

lemma strLeb_antisymm {a b : String} (h1 : strLeb a b = true) (h2 : strLeb b a = true) :
    a = b :=
  String.ext (lexLe_antisymm a.data b.data h1 h2)

instance : IsAntisymm (String × Json) keyLt :=
  ⟨fun _ _ h h' => absurd (strLeb_antisymm h.1 h'.1) h.2⟩

/-- Stable sort of object entries by key, the ordering json.dumps
applies to every object when sort_keys=True is passed. -/
def sortEntries (l : List (String × Json)) : List (String × Json) :=
  l.insertionSort keyLe

mutual

/-- Canonical form of a payload: every object, at every depth, has its
entries sorted by key.  Two payloads are equal as key-value maps
(irrespective of dict insertion order) exactly when their canonical
forms coincide. -/
def Json.canon : Json → Json
  | .null => .null
  | .bool b => .bool b
  | .num n => .num n
  | .str s => .str s
  | .arr l => .arr (canonList l)
  | .obj l => .obj (sortEntries (canonEntries l))

/-- Canonical form of each element of an array. -/
def canonList : List Json → List Json
  | [] => []
  | j :: r => j.canon :: canonList r

/-- Canonical form of each value of an object entry list (keys and
order untouched). -/
def canonEntries : List (String × Json) → List (String × Json)
  | [] => []
  | (k, v) :: r => (k, v.canon) :: canonEntries r

end

mutual

/-- Serialization of an (already canonicalized) payload with the
default json.dumps separators. -/
def plainDumps : Json → String
  | .null => "null"
  | .bool true => "true"
  | .bool false => "false"
  | .num n => pyStr n
  | .str s => quoteStr s
  | .arr l => "[" ++ plainDumpsList l ++ "]"
  | .obj l => "\x7b" ++ plainDumpsEntries l ++ "\x7d"

/-- Comma-joined serialization of array elements. -/
def plainDumpsList : List Json → String
  | [] => ""
  | [j] => plainDumps j
  | j :: r => plainDumps j ++ ", " ++ plainDumpsList r

/-- Comma-joined serialization of object entries. -/
def plainDumpsEntries : List (String × Json) → String
  | [] => ""
  | [(k, v)] => quoteStr k ++ ": " ++ plainDumps v
  | (k, v) :: r => quoteStr k ++ ": " ++ plainDumps v ++ ", " ++ plainDumpsEntries r

end

/-- Model of json.dumps(data, sort_keys=True): serialize the canonical
(key-sorted at every level) form of the payload. -/
def dumpsSorted (j : Json) : String := plainDumps j.canon

/-- Abstract model of the external cryptographic primitives the ledger
calls: hashlib.sha256 hex digests over serialized strings, and the
node's RSA identity (its private signing function, its public key in
PEM form, and the RSA-PSS verifier, which the source wraps so that it
totally returns a boolean). -/
structure Crypto where
  sha256 : String → String
  verify : String → String → String → Bool
  signData : String → String
  pubPem : String

/-- Python truthiness test on a JSON value, as used by the validator's
expressions of the form (value or default). -/
def jsonFalsy : Json → Bool
  | .null => true
  | .bool b => !b
  | .num n => n == 0
  | .str s => s == ""
  | .arr l => l.isEmpty
  | .obj l => l.isEmpty

/-- The expression (block.get("data", default) or default): a falsy
data value is replaced by the empty dict before hashing or verifying. -/
def dataOrEmpty (j : Json) : Json := if jsonFalsy j then .obj [] else j

/-- Python str.startswith on strings. -/
def pyStartsWith (s t : String) : Bool := t.data.isPrefixOf s.data

/-- The PoW target, the Python expression "0" * difficulty (empty for a
non-positive difficulty). -/
def zerosOf (d : Int) : String := ⟨List.replicate d.toNat '0'⟩

/-- calculate_merkle_root: SHA-256 of the key-sorted JSON serialization
of the payload. -/
def calculate_merkle_root (E : Crypto) (data : Json) : String :=
  E.sha256 (dumpsSorted data)

/-- compute_pow_hash: digest of the f-string
previous_hash, timestamp, merkle_root, nonce. -/
def compute_pow_hash (E : Crypto) (previous_hash : String) (timestamp : Int)
    (merkle_root : String) (nonce : Int) : String :=
  E.sha256 (previous_hash ++ pyStr timestamp ++ merkle_root ++ pyStr nonce)

/-- compute_poa_hash: digest of the f-string
previous_hash, timestamp, merkle_root, authority_id. -/
def compute_poa_hash (E : Crypto) (previous_hash : String) (timestamp : Int)
    (merkle_root : String) (authority_id : String) : String :=
  E.sha256 (previous_hash ++ pyStr timestamp ++ merkle_root ++ authority_id)

/-- authority_id: first 16 hex characters of the SHA-256 digest of the
node's public key PEM. -/
def authority_id (E : Crypto) : String := (E.sha256 E.pubPem).take 16

/-- sign_data: RSA signature (as hex) over the key-sorted JSON
serialization of the payload. -/
def sign_data (E : Crypto) (data : Json) : String :=
  E.signData (dumpsSorted data)

/-- verify_signature: verify a hex signature over the key-sorted JSON
serialization of the payload against a PEM public key; total. -/
def verify_signature (E : Crypto) (public_pem : String) (data : Json)
    (signature_hex : String) : Bool :=
  E.verify public_pem (dumpsSorted data) signature_hex

/-- One block of the ledger.  The fields timestamp, data, merkle_root
and hash are mandatory (the validator rejects any block lacking one of
them before reading anything else); the remaining fields are optional,
mirroring the .get accesses with defaults in the source. -/
structure Block where
  index : Option Int
  timestamp : Int
  data : Json
  merkle_root : String
  previous_hash : Option String
  hash : String
  nonce : Option Int
  difficulty : Option Int
  consensus : Option String
  signature : Option String
  public_key : Option String
  authority_id : Option String

/-- State of the chain.json persistent store: the file may be absent,
present but unparseable, or hold a parsed chain snapshot. -/
inductive Store where
  | absent : Store
  | corrupt : Store
  | snapshot : List Block → Store

/-- State of one LocalBlockchain node: its configured consensus mode
and PoW difficulty, its in-memory chain, and the persisted store. -/
structure LocalBlockchain where
  consensus : String
  difficulty : Int
  chain : List Block
  stored : Store

/-- DEFAULT_DIFFICULTY class constant. -/
def DEFAULT_DIFFICULTY : Int := 4

/-- The expression self.chain[-1]["hash"] if self.chain else "0". -/
def lastHash (chain : List Block) : String :=
  match chain.getLast? with
  | some b => b.hash
  | none => "0"

/-- The Proof-of-Work loop of create_block: starting from the given
nonce, increment by one until the digest starts with the target zero
run.  The source loop is unbounded; fuel makes the search a total
function, returning none when the bound is exhausted. -/
def mineLoop (E : Crypto) (previous_hash : String) (timestamp : Int)
    (merkle_root : String) (zeros : String) : Nat → Int → Option (Int × String)
  | 0, _ => none
  | fuel + 1, nonce =>
    let block_hash := compute_pow_hash E previous_hash timestamp merkle_root nonce
    if pyStartsWith block_hash zeros then some (nonce, block_hash)
    else mineLoop E previous_hash timestamp merkle_root zeros fuel (nonce + 1)

/-- create_block: build, sign, append and persist a new block from a
payload at the given timestamp.  PoW mode mines a nonce (none is
returned when the fuel bound stops the unbounded source loop); any
other mode stamps the block Proof-of-Authority style. -/
def create_block (E : Crypto) (st : LocalBlockchain) (data : Json) (ts : Int)
    (fuel : Nat) : Option (LocalBlockchain × Block) :=
  let previous_hash := lastHash st.chain
  let merkle_root := calculate_merkle_root E data
  let core : Option (Int × Int × String × Option String) :=
    if st.consensus == "pow" then
      match mineLoop E previous_hash ts merkle_root (zerosOf st.difficulty) fuel 0 with
      | none => none
      | some (nonce, h) => some (nonce, st.difficulty, h, none)
    else
      some (0, 0, compute_poa_hash E previous_hash ts merkle_root (authority_id E),
        some (authority_id E))
  match core with
  | none => none
  | some (nonce, difficulty, block_hash, auth) =>
    let block : Block :=
      { index := some ((st.chain.length : Int) + 1)
        timestamp := ts
        data := data
        merkle_root := merkle_root
        previous_hash := some previous_hash
        hash := block_hash
        nonce := some nonce
        difficulty := some difficulty
        consensus := some st.consensus
        signature := some (sign_data E data)
        public_key := some E.pubPem
        authority_id := auth }
    let chain' := st.chain ++ [block]
    some ({ st with chain := chain', stored := .snapshot chain' }, block)

/-- store_evaluation: the sink interface, appending one evaluation
record as a new block. -/
def store_evaluation (E : Crypto) (st : LocalBlockchain) (evaluation : Json)
    (ts : Int) (fuel : Nat) : Option (LocalBlockchain × Block) :=
  create_block E st evaluation ts fuel

/-- Linkage check of the validator: for a non-genesis block the stored
previous_hash must equal the previous block's hash. -/
def linkOk (p : Option Block) (b : Block) : Bool :=
  match p with
  | none => true
  | some q => b.previous_hash == some q.hash

/-- Merkle recomputation of the validator over the block's (possibly
falsy-coerced) data. -/
def merkleForBlock (E : Crypto) (b : Block) : String :=
  E.sha256 (dumpsSorted (dataOrEmpty b.data))

/-- Merkle check of the validator. -/
def merkleOk (E : Crypto) (b : Block) : Bool :=
  b.merkle_root == merkleForBlock E b

/-- Consensus tag the validator dispatches on: the block's own stored
tag, defaulting to pow when the block's difficulty is positive and poa
otherwise. -/
def consensusTag (b : Block) : String :=
  b.consensus.getD (if 0 < b.difficulty.getD 0 then "pow" else "poa")

/-- Consensus check of the validator: recompute the mode-specific
digest from the stored fields and compare with the stored hash; under
PoW with positive difficulty the digest must also start with that many
zero characters. -/
def consensusOk (E : Crypto) (b : Block) : Bool :=
  let prev_hash := b.previous_hash.getD ""
  let nonce := b.nonce.getD 0
  let difficulty := b.difficulty.getD 0
  if consensusTag b == "pow" then
    let recomputed := compute_pow_hash E prev_hash b.timestamp b.merkle_root nonce
    recomputed == b.hash &&
      (if 0 < difficulty then pyStartsWith recomputed (zerosOf difficulty) else true)
  else
    let recomputed :=
      compute_poa_hash E prev_hash b.timestamp b.merkle_root (b.authority_id.getD "")
    recomputed == b.hash

/-- Signature check of the validator: skipped whenever the signature or
the public key is missing or empty (Python falsy). -/
def sigOk (E : Crypto) (b : Block) : Bool :=
  match b.signature, b.public_key with
  | some sig, some pem =>
    if sig == "" || pem == "" then true
    else verify_signature E pem (dataOrEmpty b.data) sig
  | _, _ => true

/-- All per-block checks of is_valid_chain for one block given its
predecessor (the required-field presence check is vacuous here because
the mandatory fields are part of the Block record). -/
def chainStep (E : Crypto) (p : Option Block) (b : Block) : Bool :=
  linkOk p b && merkleOk E b && consensusOk E b && sigOk E b

/-- The validator's loop from a given predecessor. -/
def validFrom (E : Crypto) : Option Block → List Block → Bool
  | _, [] => true
  | p, b :: rest => chainStep E p b && validFrom E (some b) rest

/-- is_valid_chain: an empty candidate is invalid; otherwise every
block must pass linkage, merkle, consensus and signature checks. -/
def is_valid_chain (E : Crypto) (chain : List Block) : Bool :=
  if chain.isEmpty then false else validFrom E none chain

/-- is_chain_valid: validate the node's own chain. -/
def is_chain_valid (E : Crypto) (st : LocalBlockchain) : Bool :=
  is_valid_chain E st.chain

/-- replace_chain: adopt a candidate chain iff it is non-empty,
strictly longer than the current chain and fully valid; on adoption the
chain is persisted immediately.  Returns the updated node and the
boolean result. -/
def replace_chain (E : Crypto) (st : LocalBlockchain) (new_chain : List Block) :
    LocalBlockchain × Bool :=
  if new_chain.isEmpty then (st, false)
  else if new_chain.length ≤ st.chain.length then (st, false)
  else if is_valid_chain E new_chain then
    ({ st with chain := new_chain, stored := .snapshot new_chain }, true)
  else (st, false)

/-- recent: the Python slice self.chain[-limit:], most recent blocks
for read-only consumers. -/
def recent (chain : List Block) (limit : Int) : List Block :=
  let s : Int := -limit
  if s < 0 then chain.drop ((chain.length : Int) + s).toNat
  else chain.drop s.toNat

/-- Genesis payload used by create_genesis_block. -/
def genesisData : Json := .obj [("system", .str "Blockchain Initialized")]

/-- load_chain: the chain read at startup, empty when the store is
absent or fails to parse. -/
def loadedChain : Store → List Block
  | .absent => []
  | .corrupt => []
  | .snapshot c => c

/-- init_fresh_chain: reset to an empty chain, create the genesis block
and persist (create_block already persists the appended chain). -/
def initFresh (E : Crypto) (st : LocalBlockchain) (ts : Int) (fuel : Nat) :
    Option LocalBlockchain :=
  match create_block E { st with chain := [] } genesisData ts fuel with
  | none => none
  | some (st', _) => some st'

/-- Node construction: reject an unknown consensus mode, load the
persisted chain, and bootstrap a fresh genesis chain when the loaded
chain is empty or fails validation; otherwise adopt the loaded chain. -/
def blockchain_init (E : Crypto) (consensus : String) (difficulty : Option Int)
    (store : Store) (ts : Int) (fuel : Nat) : Option LocalBlockchain :=
  if consensus = "pow" ∨ consensus = "poa" then
    let diff := difficulty.getD DEFAULT_DIFFICULTY
    let loaded := loadedChain store
    let st : LocalBlockchain :=
      { consensus := consensus, difficulty := diff, chain := loaded, stored := store }
    if loaded.isEmpty then initFresh E st ts fuel
    else if is_valid_chain E loaded then some st
    else initFresh E st ts fuel
  else none

/-- Repeated appends through the sink interface, one timestamped
payload at a time. -/
def appendPayloads (E : Crypto) (st : LocalBlockchain) :
    List (Json × Int) → Nat → Option LocalBlockchain
  | [], _ => some st
  | (d, ts) :: rest, fuel =>
    match store_evaluation E st d ts fuel with
    | none => none
    | some (st', _) => appendPayloads E st' rest fuel

/-- Per-index linkage of a chain: every block's previous_hash equals
the preceding block's hash. -/
def linkedB : List Block → Bool
  | [] => true
  | [_] => true
  | a :: b :: r => (b.previous_hash == some a.hash) && linkedB (b :: r)

/-- Indices of a chain count up from the given start. -/
def indexedFrom (k : Int) : List Block → Bool
  | [] => true
  | b :: r => (b.index == some k) && indexedFrom (k + 1) r

/-- Decoder of a decimal digit list, used to show that Python decimal
rendering is injective. -/
def natDecode (l : List Char) : Nat :=
  l.foldl (fun a c => 10 * a + (c.toNat - 48)) 0

lemma digitOf_toNat {d : Nat} (hd : d < 10) : (digitOf d).toNat = 48 + d := by
  interval_cases d <;> decide

lemma digitOf_ne_neg {d : Nat} (hd : d < 10) : digitOf d ≠ '-' := by
  revert hd; revert d; decide

lemma natDecode_append_one (xs : List Char) (c : Char) :
    natDecode (xs ++ [c]) = 10 * natDecode xs + (c.toNat - 48) := by
  unfold natDecode
  rw [List.foldl_append]
  rfl

lemma natDigitsAux_decode : ∀ fuel n : Nat, n < fuel →
    natDecode (natDigitsAux fuel n) = n := by
  intro fuel
  induction fuel with
  | zero => omega
  | succ f ih =>
    intro n h
    rw [natDigitsAux]
    by_cases h10 : n < 10
    · simp only [h10, if_true]
      show 10 * 0 + ((digitOf n).toNat - 48) = n
      rw [digitOf_toNat h10]
      omega
    · simp only [h10, if_false]
      have hlt : n / 10 < n := Nat.div_lt_self (by omega) (by omega)
      rw [natDecode_append_one, ih (n / 10) (by omega),
        digitOf_toNat (Nat.mod_lt n (by omega))]
      omega

lemma natDecode_natDigits (n : Nat) : natDecode (natDigits n) = n :=
  natDigitsAux_decode (n + 1) n (by omega)

lemma natStr_injective : Function.Injective natStr := by
  intro a b h
  have hd : natDigits a = natDigits b := congrArg String.data h
  have := natDecode_natDigits a
  rw [hd, natDecode_natDigits b] at this
  omega

lemma natDigitsAux_head : ∀ fuel n : Nat, n < fuel →
    ∃ d t, d < 10 ∧ natDigitsAux fuel n = digitOf d :: t := by
  intro fuel
  induction fuel with
  | zero => omega
  | succ f ih =>
    intro n h
    rw [natDigitsAux]
    by_cases h10 : n < 10
    · exact ⟨n, [], h10, by simp [h10]⟩
    · have hlt : n / 10 < n := Nat.div_lt_self (by omega) (by omega)
      obtain ⟨d, t, hd, ht⟩ := ih (n / 10) (by omega)
      exact ⟨d, t ++ [digitOf (n % 10)], hd, by simp [h10, ht]⟩

lemma natDigits_head (n : Nat) : ∃ d t, d < 10 ∧ natDigits n = digitOf d :: t :=
  natDigitsAux_head (n + 1) n (by omega)

lemma string_data_injective {a b : String} (h : a.data = b.data) : a = b :=
  String.ext h

lemma string_append_right_cancel {a b c : String} (h : a ++ c = b ++ c) : a = b := by
  apply string_data_injective
  have hd := congrArg String.data h
  rw [String.data_append, String.data_append] at hd
  exact List.append_cancel_right hd

lemma string_append_left_cancel {a b c : String} (h : a ++ b = a ++ c) : b = c := by
  apply string_data_injective
  have hd := congrArg String.data h
  rw [String.data_append, String.data_append] at hd
  exact List.append_cancel_left hd

lemma pyStr_injective : Function.Injective pyStr := by
  intro i j h
  unfold pyStr at h
  by_cases hi : i < 0 <;> by_cases hj : j < 0
  · simp only [hi, hj, if_true] at h
    have := natStr_injective (string_append_left_cancel h)
    omega
  · simp only [hi, hj, if_true, if_false] at h
    have hd := congrArg String.data h
    rw [String.data_append] at hd
    obtain ⟨d, t, hdlt, ht⟩ := natDigits_head j.toNat
    have : '-' :: (natStr i.natAbs).data = digitOf d :: t := by
      simpa [ht, natStr] using hd
    exact absurd (List.head_eq_of_cons_eq this).symm (digitOf_ne_neg hdlt)
  · simp only [hi, hj, if_true, if_false] at h
    have hd := congrArg String.data h
    rw [String.data_append] at hd
    obtain ⟨d, t, hdlt, ht⟩ := natDigits_head i.toNat
    have : digitOf d :: t = '-' :: (natStr j.natAbs).data := by
      simpa [ht, natStr] using hd
    exact absurd (List.head_eq_of_cons_eq this) (digitOf_ne_neg hdlt)
  · simp only [hi, hj, if_false] at h
    have := natStr_injective h
    omega

/-- Predecessor tracked by the validator loop after consuming a list of
blocks. -/
def prevAfter (p : Option Block) : List Block → Option Block
  | [] => p
  | b :: r => prevAfter (some b) r

lemma validFrom_append (E : Crypto) (p : Option Block) (l1 l2 : List Block) :
    validFrom E p (l1 ++ l2) = (validFrom E p l1 && validFrom E (prevAfter p l1) l2) := by
  induction l1 generalizing p with
  | nil => simp [validFrom, prevAfter]
  | cons b r ih => simp [validFrom, prevAfter, ih, Bool.and_assoc]

lemma is_valid_decomp (E : Crypto) (l1 : List Block) (b : Block) (l2 : List Block) :
    is_valid_chain E (l1 ++ b :: l2) =
      (validFrom E none l1 && (chainStep E (prevAfter none l1) b &&
        validFrom E (some b) l2)) := by
  unfold is_valid_chain
  have hne : (l1 ++ b :: l2).isEmpty = false := by cases l1 <;> rfl
  rw [hne]
  simp only [Bool.false_eq_true, if_false, validFrom_append, validFrom]

lemma is_valid_mut_false (E : Crypto) (l1 : List Block) (b' : Block) (l2 : List Block)
    (h : chainStep E (prevAfter none l1) b' = false) :
    is_valid_chain E (l1 ++ b' :: l2) = false := by
  rw [is_valid_decomp, h]
  simp

lemma is_valid_step (E : Crypto) (l1 : List Block) (b : Block) (l2 : List Block)
    (h : is_valid_chain E (l1 ++ b :: l2) = true) :
    chainStep E (prevAfter none l1) b = true := by
  rw [is_valid_decomp] at h
  simp only [Bool.and_eq_true] at h
  exact h.2.1

lemma chainStep_parts {E : Crypto} {p : Option Block} {b : Block}
    (h : chainStep E p b = true) :
    linkOk p b = true ∧ merkleOk E b = true ∧ consensusOk E b = true ∧ sigOk E b = true := by
  simpa [chainStep, Bool.and_eq_true, and_assoc] using h

/-- Digest the validator recomputes for a block, per its dispatched
consensus tag. -/
def recomputedHash (E : Crypto) (b : Block) : String :=
  if consensusTag b == "pow" then
    compute_pow_hash E (b.previous_hash.getD "") b.timestamp b.merkle_root (b.nonce.getD 0)
  else
    compute_poa_hash E (b.previous_hash.getD "") b.timestamp b.merkle_root
      (b.authority_id.getD "")

lemma consensusOk_eq (E : Crypto) (b : Block) :
    consensusOk E b = ((recomputedHash E b == b.hash) &&
      (if consensusTag b == "pow" then
        (if 0 < b.difficulty.getD 0 then
          pyStartsWith (recomputedHash E b) (zerosOf (b.difficulty.getD 0)) else true)
       else true)) := by
  unfold consensusOk recomputedHash
  by_cases h : consensusTag b == "pow" <;> simp [h]

lemma consensusOk_true_hash {E : Crypto} {b : Block} (h : consensusOk E b = true) :
    recomputedHash E b = b.hash := by
  rw [consensusOk_eq] at h
  simp only [Bool.and_eq_true, beq_iff_eq] at h
  exact h.1

lemma chainStep_hash_mut {E : Crypto} {p : Option Block} {b : Block}
    (h : chainStep E p b = true) {h' : String} (hne : h' ≠ b.hash) :
    chainStep E p { b with hash := h' } = false := by
  have hc := consensusOk_true_hash (chainStep_parts h).2.2.1
  have hrec : recomputedHash E { b with hash := h' } = recomputedHash E b := rfl
  have : consensusOk E { b with hash := h' } = false := by
    rw [consensusOk_eq, hrec, hc]
    have hb : (b.hash == ({ b with hash := h' } : Block).hash) = false := by
      show (b.hash == h') = false
      exact beq_eq_false_iff_ne.mpr (fun hx => hne hx.symm)
    rw [hb, Bool.false_and]
  simp [chainStep, this]

lemma chainStep_merkle_mut {E : Crypto} {p : Option Block} {b : Block}
    (h : chainStep E p b = true) {m' : String} (hne : m' ≠ b.merkle_root) :
    chainStep E p { b with merkle_root := m' } = false := by
  have hm : merkleOk E b = true := (chainStep_parts h).2.1
  rw [merkleOk, beq_iff_eq] at hm
  have : merkleOk E { b with merkle_root := m' } = false := by
    rw [merkleOk]
    have hfor : merkleForBlock E { b with merkle_root := m' } = merkleForBlock E b := rfl
    rw [hfor]
    show (m' == merkleForBlock E b) = false
    rw [← hm]
    exact beq_eq_false_iff_ne.mpr hne
  simp [chainStep, this]

lemma string_append_assoc (a b c : String) : (a ++ b) ++ c = a ++ (b ++ c) := by
  apply string_data_injective
  simp [String.data_append, List.append_assoc]

lemma sha_cancel_right {E : Crypto} (hinj : Function.Injective E.sha256) {a b t : String}
    (h : E.sha256 (a ++ t) = E.sha256 (b ++ t)) : a = b :=
  string_append_right_cancel (hinj h)

lemma sha_cancel_left {E : Crypto} (hinj : Function.Injective E.sha256) {s a b : String}
    (h : E.sha256 (s ++ a) = E.sha256 (s ++ b)) : a = b :=
  string_append_left_cancel (hinj h)

lemma compute_pow_hash_left (E : Crypto) (p : String) (ts : Int) (root : String) (n : Int) :
    compute_pow_hash E p ts root n = E.sha256 (p ++ (pyStr ts ++ (root ++ pyStr n))) := by
  unfold compute_pow_hash
  rw [string_append_assoc (p ++ pyStr ts) root (pyStr n),
    string_append_assoc p (pyStr ts) (root ++ pyStr n)]

lemma compute_poa_hash_left (E : Crypto) (p : String) (ts : Int) (root : String) (a : String) :
    compute_poa_hash E p ts root a = E.sha256 (p ++ (pyStr ts ++ (root ++ a))) := by
  unfold compute_poa_hash
  rw [string_append_assoc (p ++ pyStr ts) root a,
    string_append_assoc p (pyStr ts) (root ++ a)]

lemma chainStep_prev_mut {E : Crypto} {p : Option Block} {b : Block}
    (hinj : Function.Injective E.sha256) (h : chainStep E p b = true)
    {p0 p' : String} (hp : b.previous_hash = some p0) (hne : p' ≠ p0) :
    chainStep E p { b with previous_hash := some p' } = false := by
  cases p with
  | some q =>
    have hl : linkOk (some q) b = true := (chainStep_parts h).1
    rw [linkOk, hp] at hl
    have hq : p0 = q.hash := by simpa using hl
    have : linkOk (some q) { b with previous_hash := some p' } = false := by
      rw [linkOk]
      show (some p' == some q.hash) = false
      rw [← hq]
      simp [hne]
    simp [chainStep, this]
  | none =>
    have hc := consensusOk_true_hash (chainStep_parts h).2.2.1
    have hm' : recomputedHash E { b with previous_hash := some p' } =
        (if consensusTag b == "pow" then
          compute_pow_hash E p' b.timestamp b.merkle_root (b.nonce.getD 0)
        else
          compute_poa_hash E p' b.timestamp b.merkle_root (b.authority_id.getD "")) := rfl
    have hb' : recomputedHash E b =
        (if consensusTag b == "pow" then
          compute_pow_hash E p0 b.timestamp b.merkle_root (b.nonce.getD 0)
        else
          compute_poa_hash E p0 b.timestamp b.merkle_root (b.authority_id.getD "")) := by
      unfold recomputedHash
      rw [hp]
      rfl
    have : consensusOk E { b with previous_hash := some p' } = false := by
      rw [consensusOk_eq]
      have hfalse : (recomputedHash E { b with previous_hash := some p' } ==
          ({ b with previous_hash := some p' } : Block).hash) = false := by
        show (recomputedHash E { b with previous_hash := some p' } == b.hash) = false
        apply beq_eq_false_iff_ne.mpr
        intro heq
        have heq2 := hm'.symm.trans (heq.trans (hc.symm.trans hb'))
        by_cases h1 : (consensusTag b == "pow") = true
        · rw [if_pos h1, if_pos h1, compute_pow_hash_left, compute_pow_hash_left] at heq2
          exact hne (sha_cancel_right hinj heq2)
        · rw [if_neg h1, if_neg h1, compute_poa_hash_left, compute_poa_hash_left] at heq2
          exact hne (sha_cancel_right hinj heq2)
      rw [hfalse, Bool.false_and]
    simp [chainStep, this]

lemma chainStep_nonce_mut {E : Crypto} {p : Option Block} {b : Block}
    (hinj : Function.Injective E.sha256) (h : chainStep E p b = true)
    (htag : consensusTag b = "pow")
    {n n' : Int} (hn : b.nonce = some n) (hne : n' ≠ n) :
    chainStep E p { b with nonce := some n' } = false := by
  have hc := consensusOk_true_hash (chainStep_parts h).2.2.1
  have htagb : (consensusTag b == "pow") = true := by simp [htag]
  have hm' : recomputedHash E { b with nonce := some n' } =
      compute_pow_hash E (b.previous_hash.getD "") b.timestamp b.merkle_root n' := by
    have heqtag : consensusTag { b with nonce := some n' } = consensusTag b := rfl
    unfold recomputedHash
    rw [heqtag, htagb, if_pos rfl]
    rfl
  have hb' : recomputedHash E b =
      compute_pow_hash E (b.previous_hash.getD "") b.timestamp b.merkle_root n := by
    unfold recomputedHash
    rw [htagb, if_pos rfl, hn]
    rfl
  have : consensusOk E { b with nonce := some n' } = false := by
    rw [consensusOk_eq]
    have hfalse : (recomputedHash E { b with nonce := some n' } ==
        ({ b with nonce := some n' } : Block).hash) = false := by
      show (recomputedHash E { b with nonce := some n' } == b.hash) = false
      apply beq_eq_false_iff_ne.mpr
      intro heq
      have heq2 := hm'.symm.trans (heq.trans (hc.symm.trans hb'))
      unfold compute_pow_hash at heq2
      exact hne (pyStr_injective (sha_cancel_left hinj heq2))
    rw [hfalse, Bool.false_and]
  simp [chainStep, this]

lemma chainStep_data_mut {E : Crypto} {p : Option Block} {b : Block}
    (hinj : Function.Injective E.sha256) (h : chainStep E p b = true)
    {d' : Json} (hne : dumpsSorted (dataOrEmpty d') ≠ dumpsSorted (dataOrEmpty b.data)) :
    chainStep E p { b with data := d' } = false := by
  have hm : merkleOk E b = true := (chainStep_parts h).2.1
  rw [merkleOk, beq_iff_eq] at hm
  have : merkleOk E { b with data := d' } = false := by
    rw [merkleOk]
    show (b.merkle_root == E.sha256 (dumpsSorted (dataOrEmpty d'))) = false
    apply beq_eq_false_iff_ne.mpr
    intro heq
    rw [hm] at heq
    exact hne (hinj heq.symm)
  simp [chainStep, this]

/-- Concrete environment for counterexamples and witnesses: the hash is
the identity on strings (trivially injective), the verifier accepts
exactly the signature string the signer produces. -/
def ceEnv : Crypto :=
  { sha256 := fun s => s
    verify := fun _ _ sig => sig == "ab"
    signData := fun _ => "ab"
    pubPem := "k" }

/-- Concrete single-block valid chain over ceEnv: a PoA block with an
empty-object payload, consistent Merkle root, digest and signature. -/
def ceBlock : Block :=
  { index := some 1
    timestamp := 0
    data := .obj []
    merkle_root := calculate_merkle_root ceEnv (.obj [])
    previous_hash := some "0"
    hash := compute_poa_hash ceEnv "0" 0 (calculate_merkle_root ceEnv (.obj [])) ""
    nonce := some 0
    difficulty := some 0
    consensus := some "poa"
    signature := some "ab"
    public_key := some "k"
    authority_id := none }

/-- Claim C1, counterexample: the claim that mutating any one of the
fields hash, previous_hash, merkle_root, nonce, signature or payload in
any block of a valid chain always invalidates it is false.  On a valid
single-block PoA chain, changing the nonce to a different value leaves
the chain valid (the validator never reads the nonce of a PoA block),
and changing the signature to the empty string leaves the chain valid
(a falsy signature makes the validator skip the signature check). -/
theorem mutation_counterexample :
    is_valid_chain ceEnv [ceBlock] = true
    ∧ some (5 : Int) ≠ ceBlock.nonce
    ∧ is_valid_chain ceEnv [{ ceBlock with nonce := some 5 }] = true
    ∧ some "" ≠ ceBlock.signature
    ∧ is_valid_chain ceEnv [{ ceBlock with signature := some "" }] = true := by
  refine ⟨by decide, by decide, by decide, by decide, by decide⟩

/-- Claim C1, amended: in any valid chain, with a collision-free hash
function, mutating a block's hash, merkle_root, or (present)
previous_hash to a different value, mutating its payload to one whose
canonical serialization (after the validator's falsy-to-empty-dict
coercion) differs, or mutating the nonce of a block validated under PoW
to a different value, makes is_valid_chain return false.  (Signature
mutations and the remaining nonce/payload mutations need not invalidate
the chain, per the counterexample.) -/
theorem single_field_mutation_invalidates (E : Crypto)
    (hinj : Function.Injective E.sha256) (l1 l2 : List Block) (b : Block)
    (hvalid : is_valid_chain E (l1 ++ b :: l2) = true) :
    (∀ h', h' ≠ b.hash →
      is_valid_chain E (l1 ++ { b with hash := h' } :: l2) = false)
    ∧ (∀ m', m' ≠ b.merkle_root →
      is_valid_chain E (l1 ++ { b with merkle_root := m' } :: l2) = false)
    ∧ (∀ p0 p', b.previous_hash = some p0 → p' ≠ p0 →
      is_valid_chain E (l1 ++ { b with previous_hash := some p' } :: l2) = false)
    ∧ (∀ d', dumpsSorted (dataOrEmpty d') ≠ dumpsSorted (dataOrEmpty b.data) →
      is_valid_chain E (l1 ++ { b with data := d' } :: l2) = false)
    ∧ (∀ n n', consensusTag b = "pow" → b.nonce = some n → n' ≠ n →
      is_valid_chain E (l1 ++ { b with nonce := some n' } :: l2) = false) := by
  have hstep := is_valid_step E l1 b l2 hvalid
  refine ⟨?_, ?_, ?_, ?_, ?_⟩
  · intro h' hne
    exact is_valid_mut_false E l1 _ l2 (chainStep_hash_mut hstep hne)
  · intro m' hne
    exact is_valid_mut_false E l1 _ l2 (chainStep_merkle_mut hstep hne)
  · intro p0 p' hp hne
    exact is_valid_mut_false E l1 _ l2 (chainStep_prev_mut hinj hstep hp hne)
  · intro d' hne
    exact is_valid_mut_false E l1 _ l2 (chainStep_data_mut hinj hstep hne)
  · intro n n' htag hn hne
    exact is_valid_mut_false E l1 _ l2 (chainStep_nonce_mut hinj hstep htag hn hne)

/-- Witness for the amended C1 theorem at a concrete valid chain and a
concrete hash mutation. -/
theorem single_field_mutation_invalidates_witness :
    is_valid_chain ceEnv ([] ++ ceBlock :: []) = true
    ∧ is_valid_chain ceEnv ([] ++ { ceBlock with hash := "bad" } :: []) = false := by
  have hv : is_valid_chain ceEnv ([] ++ ceBlock :: []) = true := by decide
  exact ⟨hv, (single_field_mutation_invalidates ceEnv (fun _ _ h => h) [] [] ceBlock
    hv).1 "bad" (by decide)⟩

lemma canonEntries_eq_map (l : List (String × Json)) :
    canonEntries l = l.map (fun p => (p.1, p.2.canon)) := by
  induction l with
  | nil => rfl
  | cons p r ih => cases p; simp [canonEntries, ih]

lemma sortEntries_perm (l : List (String × Json)) : (sortEntries l).Perm l :=
  List.perm_insertionSort keyLe l

lemma sortEntries_sorted (l : List (String × Json)) :
    List.Sorted keyLe (sortEntries l) :=
  List.sorted_insertionSort keyLe l

lemma sortEntries_sorted_strict {l : List (String × Json)}
    (hnd : (l.map Prod.fst).Nodup) : List.Pairwise keyLt (sortEntries l) := by
  have hkeys : ((sortEntries l).map Prod.fst).Nodup :=
    ((sortEntries_perm l).map Prod.fst).nodup_iff.mpr hnd
  have hne : (sortEntries l).Pairwise (fun p q => p.1 ≠ q.1) :=
    List.pairwise_map.mp hkeys
  exact ((sortEntries_sorted l).and hne).imp (fun h => ⟨h.1, h.2⟩)

lemma sortEntries_perm_eq {l1 l2 : List (String × Json)} (hp : l1.Perm l2)
    (hnd : (l1.map Prod.fst).Nodup) : sortEntries l1 = sortEntries l2 := by
  have hnd2 : (l2.map Prod.fst).Nodup := ((hp.map Prod.fst).nodup_iff).mp hnd
  have hperm : (sortEntries l1).Perm (sortEntries l2) :=
    (sortEntries_perm l1).trans (hp.trans (sortEntries_perm l2).symm)
  exact List.eq_of_perm_of_sorted hperm
    (sortEntries_sorted_strict hnd) (sortEntries_sorted_strict hnd2)

/-- Claim C7: calculate_merkle_root is a pure total function of the
payload, and it is invariant under reordering of the payload's keys,
including keys of nested maps: payloads that are equal as key-value
maps (equal canonical forms, which forget insertion order at every
nesting level) have the same root, and in particular permuting the
entry list of an object with distinct keys leaves the root unchanged. -/
theorem merkle_root_key_order_invariant (E : Crypto) :
    (∀ a b : Json, Json.canon a = Json.canon b →
      calculate_merkle_root E a = calculate_merkle_root E b)
    ∧ (∀ l1 l2 : List (String × Json), l1.Perm l2 → (l1.map Prod.fst).Nodup →
      calculate_merkle_root E (.obj l1) = calculate_merkle_root E (.obj l2)) := by
  have hcanon : ∀ a b : Json, Json.canon a = Json.canon b →
      calculate_merkle_root E a = calculate_merkle_root E b := by
    intro a b h
    unfold calculate_merkle_root dumpsSorted
    rw [h]
  refine ⟨hcanon, ?_⟩
  intro l1 l2 hp hnd
  apply hcanon
  show Json.obj (sortEntries (canonEntries l1)) = Json.obj (sortEntries (canonEntries l2))
  rw [canonEntries_eq_map, canonEntries_eq_map]
  have hnd' : ((l1.map fun p => (p.1, p.2.canon)).map Prod.fst).Nodup := by
    rw [List.map_map]
    exact hnd
  rw [sortEntries_perm_eq (hp.map _) hnd']

/-- Witness for C7 at two concrete payloads with the same keys inserted
in different orders (also at nested depth). -/
theorem merkle_root_key_order_invariant_witness :
    calculate_merkle_root ceEnv
        (.obj [("b", .num 1), ("a", .obj [("y", .num 2), ("x", .num 3)])])
      = calculate_merkle_root ceEnv
        (.obj [("a", .obj [("x", .num 3), ("y", .num 2)]), ("b", .num 1)]) :=
  (merkle_root_key_order_invariant ceEnv).1
    (.obj [("b", .num 1), ("a", .obj [("y", .num 2), ("x", .num 3)])])
    (.obj [("a", .obj [("x", .num 3), ("y", .num 2)]), ("b", .num 1)])
    (by rfl)

/-- Plain block with empty and default fields, used as list material in
counterexamples that do not depend on the block contents. -/
def plainBlock : Block :=
  { index := none
    timestamp := 0
    data := .null
    merkle_root := ""
    previous_hash := none
    hash := ""
    nonce := none
    difficulty := none
    consensus := none
    signature := none
    public_key := none
    authority_id := none }

/-- Claim C9, counterexample: recent does not return the last limit
blocks for every limit.  At limit 0 the Python slice chain[-0:] is
chain[0:], the whole chain, so on a one-block chain recent returns one
block where the last 0 blocks would be none. -/
theorem recent_zero_counterexample :
    recent [plainBlock] 0 = [plainBlock] ∧ ([plainBlock] : List Block) ≠ [] :=
  ⟨rfl, by simp⟩

/-- Claim C9, amended: for every chain and every limit of at least 1,
recent returns exactly the last limit blocks of the chain in chain
order (all blocks when the chain is shorter than limit) and, being a
pure function, does not modify the chain; at limit 0 the slice instead
returns the whole chain. -/
theorem recent_last_blocks (chain : List Block) (limit : Int) (h : 1 ≤ limit) :
    recent chain limit = chain.drop (chain.length - limit.toNat) := by
  unfold recent
  have hneg : -limit < 0 := by omega
  rw [if_pos hneg]
  congr 1
  omega

/-- Witness for the amended C9 theorem at a concrete chain and limit. -/
theorem recent_last_blocks_witness :
    recent [plainBlock] 1 = List.drop ([plainBlock].length - (1 : Int).toNat) [plainBlock] :=
  recent_last_blocks [plainBlock] 1 (by decide)

/-- Single block whose previous_hash is an arbitrary string, with hash
recomputed over that string and all other fields consistent. -/
def nonGenesisSingleton (E : Crypto) (p : String) : Block :=
  { index := some 1
    timestamp := 0
    data := .obj []
    merkle_root := calculate_merkle_root E (.obj [])
    previous_hash := some p
    hash := compute_poa_hash E p 0 (calculate_merkle_root E (.obj [])) ""
    nonce := some 0
    difficulty := some 0
    consensus := some "poa"
    signature := none
    public_key := none
    authority_id := none }

/-- Claim C10: is_valid_chain never checks the genesis sentinel.  For
every environment and every string p, the single-block chain whose
first block records p as previous_hash (hash recomputed accordingly,
other fields consistent) passes validation, so validity alone does not
pin a chain to the canonical genesis. -/
theorem genesis_sentinel_unchecked (E : Crypto) (p : String) :
    is_valid_chain E [nonGenesisSingleton E p] = true
    ∧ (nonGenesisSingleton E p).previous_hash = some p := by
  constructor
  · show (chainStep E none (nonGenesisSingleton E p) && true) = true
    rw [Bool.and_true]
    unfold chainStep linkOk merkleOk consensusOk sigOk nonGenesisSingleton
    simp [consensusTag, merkleForBlock, dataOrEmpty, jsonFalsy, calculate_merkle_root]
  · rfl

/-- Claim C2: replace_chain adopts a candidate exactly when it is
non-empty, strictly longer than the current chain and fully valid; on
adoption the node's chain becomes the candidate and is persisted
immediately, and on every false return the node (chain and persisted
store alike) is unchanged. -/
theorem replace_chain_spec (E : Crypto) (st : LocalBlockchain) (c : List Block) :
    ((replace_chain E st c).2 = true ↔
      (c ≠ [] ∧ st.chain.length < c.length ∧ is_valid_chain E c = true))
    ∧ ((replace_chain E st c).2 = true →
        (replace_chain E st c).1 = { st with chain := c, stored := .snapshot c })
    ∧ ((replace_chain E st c).2 = false → (replace_chain E st c).1 = st) := by
  by_cases h1 : c.isEmpty
  · have hc : c = [] := by simpa using h1
    subst hc
    simp [replace_chain]
  · have hc : c ≠ [] := by simpa using h1
    by_cases h2 : c.length ≤ st.chain.length
    · have hnl : ¬ st.chain.length < c.length := by omega
      simp [replace_chain, h1, h2, hnl]
    · by_cases h3 : is_valid_chain E c = true
      · simp [replace_chain, h1, h2, h3, hc]
        omega
      · simp [replace_chain, h1, h2, h3, hc]

/-- Witness for C2 at a concrete node and candidate (the empty
candidate is rejected and the node is unchanged). -/
theorem replace_chain_spec_witness :
    (replace_chain ceEnv
      { consensus := "poa", difficulty := 0, chain := [plainBlock], stored := .absent }
      []).2 = false
    ∧ (replace_chain ceEnv
      { consensus := "poa", difficulty := 0, chain := [plainBlock], stored := .absent }
      []).1 =
      { consensus := "poa", difficulty := 0, chain := [plainBlock], stored := .absent } := by
  have hf : (replace_chain ceEnv
      { consensus := "poa", difficulty := 0, chain := [plainBlock], stored := .absent }
      []).2 = false := rfl
  exact ⟨hf, (replace_chain_spec ceEnv
    { consensus := "poa", difficulty := 0, chain := [plainBlock], stored := .absent }
    []).2.2 hf⟩

lemma pyStartsWith_zerosOf_nonpos (s : String) {d : Int} (hd : d ≤ 0) :
    pyStartsWith s (zerosOf d) = true := by
  unfold pyStartsWith zerosOf
  rw [show d.toNat = 0 from by omega]
  obtain ⟨l⟩ := s
  cases l <;> rfl

lemma mineLoop_spec : ∀ (E : Crypto) (p : String) (ts : Int) (root zeros : String)
    (fuel : Nat) (n0 n : Int) (h : String),
    mineLoop E p ts root zeros fuel n0 = some (n, h) →
    h = compute_pow_hash E p ts root n ∧ pyStartsWith h zeros = true := by
  intro E p ts root zeros fuel
  induction fuel with
  | zero => intro n0 n h hm; exact absurd hm (by simp [mineLoop])
  | succ f ih =>
    intro n0 n h hm
    rw [mineLoop] at hm
    by_cases hs : pyStartsWith (compute_pow_hash E p ts root n0) zeros = true
    · rw [if_pos hs] at hm
      obtain ⟨hn, hh⟩ : n0 = n ∧ compute_pow_hash E p ts root n0 = h := by
        constructor <;> [exact congrArg Prod.fst (Option.some.inj hm);
          exact congrArg Prod.snd (Option.some.inj hm)]
      subst hn
      exact ⟨hh.symm, hh ▸ hs⟩
    · rw [if_neg hs] at hm
      exact ih (n0 + 1) n h hm

lemma create_block_spec {E : Crypto} {st : LocalBlockchain} {data : Json} {ts : Int}
    {fuel : Nat} {st' : LocalBlockchain} {b : Block}
    (h : create_block E st data ts fuel = some (st', b)) :
    st'.consensus = st.consensus ∧ st'.difficulty = st.difficulty ∧
    st'.chain = st.chain ++ [b] ∧ st'.stored = Store.snapshot (st.chain ++ [b]) ∧
    b.index = some ((st.chain.length : Int) + 1) ∧
    b.timestamp = ts ∧ b.data = data ∧
    b.merkle_root = calculate_merkle_root E data ∧
    b.previous_hash = some (lastHash st.chain) ∧
    b.consensus = some st.consensus ∧
    b.signature = some (sign_data E data) ∧
    b.public_key = some E.pubPem ∧
    ((st.consensus = "pow" →
      b.difficulty = some st.difficulty ∧ b.authority_id = none ∧
      (∃ n : Int, b.nonce = some n ∧
        b.hash = compute_pow_hash E (lastHash st.chain) ts (calculate_merkle_root E data) n) ∧
      pyStartsWith b.hash (zerosOf st.difficulty) = true)
    ∧ (st.consensus ≠ "pow" →
      b.difficulty = some 0 ∧ b.nonce = some 0 ∧
      b.authority_id = some (authority_id E) ∧
      b.hash = compute_poa_hash E (lastHash st.chain) ts (calculate_merkle_root E data)
        (authority_id E))) := by
  by_cases hpow : st.consensus = "pow"
  · have hb : (st.consensus == "pow") = true := by simp [hpow]
    simp only [create_block, hb, if_true] at h
    cases hm : mineLoop E (lastHash st.chain) ts (calculate_merkle_root E data)
        (zerosOf st.difficulty) fuel 0 with
    | none => rw [hm] at h; exact absurd h (by simp)
    | some pr =>
      obtain ⟨n, hsh⟩ := pr
      rw [hm] at h
      dsimp only at h
      rw [Option.some.injEq, Prod.mk.injEq] at h
      obtain ⟨hst, hbk⟩ := h
      obtain ⟨hhash, hstart⟩ := mineLoop_spec E _ ts _ _ fuel 0 n hsh hm
      subst hbk
      subst hst
      refine ⟨rfl, rfl, rfl, rfl, rfl, rfl, rfl, rfl, rfl, rfl, rfl, rfl, ?_, ?_⟩
      · intro _
        exact ⟨rfl, rfl, ⟨n, rfl, hhash⟩, hstart⟩
      · intro hc; exact absurd hpow hc
  · have hb : (st.consensus == "pow") = false := by simp [hpow]
    simp only [create_block, hb, Bool.false_eq_true, if_false] at h
    rw [Option.some.injEq, Prod.mk.injEq] at h
    obtain ⟨hst, hbk⟩ := h
    subst hbk
    subst hst
    refine ⟨rfl, rfl, rfl, rfl, rfl, rfl, rfl, rfl, rfl, rfl, rfl, rfl, ?_, ?_⟩
    · intro hc; exact absurd hc hpow
    · intro _; exact ⟨rfl, rfl, rfl, rfl⟩

lemma prevAfter_cons (c : List Block) (a : Block) (p : Option Block) :
    prevAfter p (a :: c) = prevAfter (some a) c := rfl

lemma prevAfter_some_eq : ∀ (c : List Block) (q : Block),
    prevAfter (some q) c = some (c.getLastD q) := by
  intro c
  induction c with
  | nil => intro q; rfl
  | cons a r ih =>
    intro q
    rw [List.getLastD_cons, prevAfter_cons]
    exact ih a

lemma linkOk_prevAfter (c : List Block) (b : Block)
    (hb : b.previous_hash = some (lastHash c)) :
    linkOk (prevAfter none c) b = true := by
  cases c with
  | nil => rfl
  | cons a r =>
    rw [prevAfter_cons, prevAfter_some_eq]
    unfold linkOk
    rw [hb]
    unfold lastHash
    rw [List.getLast?_cons]
    simp

/-- Properties every block assembled by create_block satisfies: Merkle
root recomputed from its payload, verifying signature, and the
difficulty target when the block is a positive-difficulty PoW block. -/
def builtBlockOk (E : Crypto) (b : Block) : Prop :=
  b.merkle_root = calculate_merkle_root E b.data
  ∧ E.verify (b.public_key.getD "") (dumpsSorted (dataOrEmpty b.data))
      (b.signature.getD "") = true
  ∧ (consensusTag b = "pow" → 0 < b.difficulty.getD 0 →
      pyStartsWith b.hash (zerosOf (b.difficulty.getD 0)) = true)

lemma dataOrEmpty_obj (l : List (String × Json)) :
    dataOrEmpty (Json.obj l) = Json.obj l := by
  cases l <;> rfl

lemma create_block_builtOk {E : Crypto} {st : LocalBlockchain} {data : Json} {ts : Int}
    {fuel : Nat} {st' : LocalBlockchain} {b : Block}
    (hver : ∀ s, E.verify E.pubPem s (E.signData s) = true)
    (hobj : ∃ l, data = Json.obj l)
    (h : create_block E st data ts fuel = some (st', b)) : builtBlockOk E b := by
  obtain ⟨_, _, _, _, _, hts, hdata, hmerkle, hprev, hconsb, hsig, hpk, hmode⟩ :=
    create_block_spec h
  obtain ⟨l, hl⟩ := hobj
  have htag : consensusTag b = st.consensus := by
    unfold consensusTag
    rw [hconsb]
    rfl
  refine ⟨by rw [hmerkle, hdata], ?_, ?_⟩
  · rw [hpk, hsig, hdata, hl, dataOrEmpty_obj]
    simp only [Option.getD_some]
    unfold sign_data
    exact hver _
  · intro htagpow hdiff
    by_cases hp : st.consensus = "pow"
    · obtain ⟨hdb, _, _, hstart⟩ := hmode.1 hp
      rw [hdb]
      simp only [Option.getD_some]
      exact hstart
    · obtain ⟨hdb, _, _, _⟩ := hmode.2 hp
      rw [hdb] at hdiff
      simp at hdiff

lemma create_block_chainStep {E : Crypto} {st : LocalBlockchain} {data : Json} {ts : Int}
    {fuel : Nat} {st' : LocalBlockchain} {b : Block}
    (hver : ∀ s, E.verify E.pubPem s (E.signData s) = true)
    (hobj : ∃ l, data = Json.obj l)
    (h : create_block E st data ts fuel = some (st', b)) :
    chainStep E (prevAfter none st.chain) b = true := by
  obtain ⟨_, _, _, _, _, hts, hdata, hmerkle, hprev, hconsb, hsig, hpk, hmode⟩ :=
    create_block_spec h
  obtain ⟨l, hl⟩ := hobj
  have htag : consensusTag b = st.consensus := by
    unfold consensusTag
    rw [hconsb]
    rfl
  have h1 : linkOk (prevAfter none st.chain) b = true := linkOk_prevAfter _ _ hprev
  have h2 : merkleOk E b = true := by
    unfold merkleOk merkleForBlock
    rw [hmerkle, hdata, hl, dataOrEmpty_obj]
    unfold calculate_merkle_root
    exact beq_self_eq_true _
  have h3 : consensusOk E b = true := by
    rw [consensusOk_eq]
    by_cases hp : st.consensus = "pow"
    · have htagb : (consensusTag b == "pow") = true := by simp [htag, hp]
      obtain ⟨hdb, hauth, ⟨n, hnonce, hhash⟩, hstart⟩ := hmode.1 hp
      have hrec : recomputedHash E b = b.hash := by
        unfold recomputedHash
        rw [htagb, if_pos rfl, hprev, hts, hmerkle, hnonce]
        simp only [Option.getD_some]
        exact hhash.symm
      rw [hrec, htagb]
      simp only [beq_self_eq_true, Bool.true_and, if_true]
      rw [hdb]
      simp only [Option.getD_some]
      by_cases hd : 0 < st.difficulty
      · rw [if_pos hd]
        exact hstart
      · rw [if_neg hd]
    · have htagb : (consensusTag b == "pow") = false := by simp [htag, hp]
      obtain ⟨hdb, hnonce, hauth, hhash⟩ := hmode.2 hp
      have hrec : recomputedHash E b = b.hash := by
        unfold recomputedHash
        rw [htagb]
        simp only [Bool.false_eq_true, if_false]
        rw [hprev, hts, hmerkle, hauth]
        simp only [Option.getD_some]
        exact hhash.symm
      rw [hrec, htagb]
      simp
  have h4 : sigOk E b = true := by
    unfold sigOk
    rw [hsig, hpk]
    dsimp only
    by_cases hcond : (sign_data E data == "" || E.pubPem == "") = true
    · rw [if_pos hcond]
    · rw [if_neg hcond]
      unfold verify_signature
      rw [hdata, hl, dataOrEmpty_obj]
      unfold sign_data
      exact hver _
  simp [chainStep, h1, h2, h3, h4]

/-- Invariant of a node whose chain was assembled by its own block
factory: the whole chain passes the validator's loop and every block
carries the construction-time properties. -/
def BuiltOk (E : Crypto) (st : LocalBlockchain) : Prop :=
  validFrom E none st.chain = true ∧ ∀ b ∈ st.chain, builtBlockOk E b

/-- Structural invariant: linkage and 1-based consecutive indices. -/
def StructOk (st : LocalBlockchain) : Prop :=
  linkedB st.chain = true ∧ indexedFrom 1 st.chain = true

lemma validFrom_snoc (E : Crypto) (c : List Block) (b : Block) :
    validFrom E none (c ++ [b]) =
      (validFrom E none c && chainStep E (prevAfter none c) b) := by
  rw [validFrom_append]
  simp [validFrom]

lemma create_block_BuiltOk {E : Crypto} {st : LocalBlockchain} {data : Json} {ts : Int}
    {fuel : Nat} {st' : LocalBlockchain} {b : Block}
    (hver : ∀ s, E.verify E.pubPem s (E.signData s) = true)
    (hobj : ∃ l, data = Json.obj l)
    (h : create_block E st data ts fuel = some (st', b))
    (hok : BuiltOk E st) : BuiltOk E st' := by
  obtain ⟨_, _, hchain, _, _, _, _, _, _, _, _, _, _⟩ := create_block_spec h
  constructor
  · rw [hchain, validFrom_snoc, hok.1, create_block_chainStep hver hobj h]
    rfl
  · intro x hx
    rw [hchain] at hx
    rcases List.mem_append.mp hx with hx | hx
    · exact hok.2 x hx
    · rw [List.mem_singleton.mp hx]
      exact create_block_builtOk hver hobj h

lemma linkedB_snoc : ∀ (c : List Block) (b : Block), linkedB c = true →
    b.previous_hash = some (lastHash c) → linkedB (c ++ [b]) = true := by
  intro c
  induction c with
  | nil => intro b _ _; rfl
  | cons a r ih =>
    intro b hc hb
    cases r with
    | nil =>
      show ((b.previous_hash == some a.hash) && linkedB [b]) = true
      have : lastHash [a] = a.hash := rfl
      rw [this] at hb
      simp [hb, linkedB]
    | cons d m =>
      have hc' : (d.previous_hash == some a.hash) = true ∧ linkedB (d :: m) = true := by
        simpa [linkedB, Bool.and_eq_true] using hc
      have hb' : b.previous_hash = some (lastHash (d :: m)) := by
        rw [hb]
        unfold lastHash
        rw [List.getLast?_cons_cons]
      have := ih b hc'.2 hb'
      show ((d.previous_hash == some a.hash) && linkedB ((d :: m) ++ [b])) = true
      rw [hc'.1, this]
      rfl

lemma indexedFrom_snoc : ∀ (c : List Block) (k : Int) (b : Block),
    indexedFrom k c = true → b.index = some (k + (c.length : Int)) →
    indexedFrom k (c ++ [b]) = true := by
  intro c
  induction c with
  | nil =>
    intro k b _ hb
    show ((b.index == some k) && true) = true
    rw [hb]
    simp
  | cons a r ih =>
    intro k b hc hb
    have hc' : (a.index == some k) = true ∧ indexedFrom (k + 1) r = true := by
      simpa [indexedFrom, Bool.and_eq_true] using hc
    have hb' : b.index = some ((k + 1) + (r.length : Int)) := by
      rw [hb]
      congr 1
      simp only [List.length_cons]
      push_cast
      ring
    show ((a.index == some k) && indexedFrom (k + 1) (r ++ [b])) = true
    rw [hc'.1, ih (k + 1) b hc'.2 hb']
    rfl

lemma create_block_StructOk {E : Crypto} {st : LocalBlockchain} {data : Json} {ts : Int}
    {fuel : Nat} {st' : LocalBlockchain} {b : Block}
    (h : create_block E st data ts fuel = some (st', b))
    (hok : StructOk st) : StructOk st' := by
  obtain ⟨_, _, hchain, _, hindex, _, _, _, hprev, _, _, _, _⟩ := create_block_spec h
  constructor
  · rw [hchain]
    exact linkedB_snoc st.chain b hok.1 hprev
  · rw [hchain]
    refine indexedFrom_snoc st.chain 1 b hok.2 ?_
    rw [hindex]
    congr 1
    ring

lemma appendPayloads_BuiltOk {E : Crypto}
    (hver : ∀ s, E.verify E.pubPem s (E.signData s) = true) :
    ∀ (pl : List (Json × Int)) (st st' : LocalBlockchain) (fuel : Nat),
    (∀ p ∈ pl, ∃ l, p.1 = Json.obj l) →
    appendPayloads E st pl fuel = some st' →
    BuiltOk E st → BuiltOk E st' := by
  intro pl
  induction pl with
  | nil =>
    intro st st' fuel _ happ hok
    rw [show st' = st from (Option.some.inj happ).symm]
    exact hok
  | cons p rest ih =>
    intro st st' fuel hobj happ hok
    obtain ⟨d, ts⟩ := p
    rw [appendPayloads] at happ
    cases hc : store_evaluation E st d ts fuel with
    | none => rw [hc] at happ; exact absurd happ (by simp)
    | some pr =>
      obtain ⟨st1, b⟩ := pr
      rw [hc] at happ
      exact ih st1 st' fuel (fun q hq => hobj q (List.mem_cons_of_mem _ hq)) happ
        (create_block_BuiltOk hver (hobj (d, ts) (List.mem_cons_self _ _)) hc hok)

lemma appendPayloads_chain {E : Crypto} : ∀ (pl : List (Json × Int))
    (st st' : LocalBlockchain) (fuel : Nat),
    appendPayloads E st pl fuel = some st' →
    st'.consensus = st.consensus ∧ st'.difficulty = st.difficulty ∧
    st'.chain.length = st.chain.length + pl.length ∧
    ∃ t, st'.chain = st.chain ++ t := by
  intro pl
  induction pl with
  | nil =>
    intro st st' fuel happ
    rw [show st' = st from (Option.some.inj happ).symm]
    exact ⟨rfl, rfl, rfl, [], by simp⟩
  | cons p rest ih =>
    intro st st' fuel happ
    obtain ⟨d, ts⟩ := p
    rw [appendPayloads] at happ
    cases hc : store_evaluation E st d ts fuel with
    | none => rw [hc] at happ; exact absurd happ (by simp)
    | some pr =>
      obtain ⟨st1, b⟩ := pr
      rw [hc] at happ
      obtain ⟨hcons, hdiff, hchain, _, _, _, _, _, _, _, _, _, _⟩ := create_block_spec hc
      obtain ⟨ihc, ihd, ihl, t, iht⟩ := ih st1 st' fuel happ
      refine ⟨ihc.trans hcons, ihd.trans hdiff, ?_, [b] ++ t, ?_⟩
      · rw [ihl, hchain]
        simp
        omega
      · rw [iht, hchain]
        simp

lemma appendPayloads_StructOk {E : Crypto} : ∀ (pl : List (Json × Int))
    (st st' : LocalBlockchain) (fuel : Nat),
    appendPayloads E st pl fuel = some st' →
    StructOk st → StructOk st' := by
  intro pl
  induction pl with
  | nil =>
    intro st st' fuel happ hok
    rw [show st' = st from (Option.some.inj happ).symm]
    exact hok
  | cons p rest ih =>
    intro st st' fuel happ hok
    obtain ⟨d, ts⟩ := p
    rw [appendPayloads] at happ
    cases hc : store_evaluation E st d ts fuel with
    | none => rw [hc] at happ; exact absurd happ (by simp)
    | some pr =>
      obtain ⟨st1, b⟩ := pr
      rw [hc] at happ
      exact ih st1 st' fuel happ (create_block_StructOk hc hok)

lemma genesisData_obj : ∃ l, genesisData = Json.obj l :=
  ⟨[("system", .str "Blockchain Initialized")], rfl⟩

lemma initFresh_spec {E : Crypto} {st : LocalBlockchain} {ts : Int} {fuel : Nat}
    {st' : LocalBlockchain} (h : initFresh E st ts fuel = some st') :
    ∃ g, create_block E { st with chain := [] } genesisData ts fuel = some (st', g)
      ∧ st'.chain = [g] ∧ st'.stored = Store.snapshot [g]
      ∧ st'.consensus = st.consensus ∧ st'.difficulty = st.difficulty
      ∧ g.previous_hash = some "0" ∧ g.index = some 1 ∧ g.data = genesisData := by
  unfold initFresh at h
  cases hc : create_block E { st with chain := [] } genesisData ts fuel with
  | none => rw [hc] at h; exact absurd h (by simp)
  | some pr =>
    obtain ⟨st1, g⟩ := pr
    rw [hc] at h
    have hst : st1 = st' := Option.some.inj h
    subst hst
    obtain ⟨hcons, hdiff, hchain, hstored, hindex, _, hdata, _, hprev, _, _, _, _⟩ :=
      create_block_spec hc
    refine ⟨g, rfl, by simpa using hchain, by simpa using hstored,
      hcons, hdiff, by simpa [lastHash] using hprev, ?_, hdata⟩
    rw [hindex]
    norm_num

lemma blockchain_init_absent {E : Crypto} {cons : String} {diffOpt : Option Int}
    {ts : Int} {fuel : Nat} {st : LocalBlockchain}
    (h : blockchain_init E cons diffOpt .absent ts fuel = some st) :
    initFresh E ({ consensus := cons,
                   difficulty := diffOpt.getD DEFAULT_DIFFICULTY,
                   chain := [],
                   stored := Store.absent } : LocalBlockchain) ts fuel = some st := by
  unfold blockchain_init at h
  by_cases hc : cons = "pow" ∨ cons = "poa"
  · rw [if_pos hc] at h
    simpa [loadedChain] using h
  · rw [if_neg hc] at h
    exact absurd h (by simp)

lemma fresh_start_spec {E : Crypto} {cons : String} {diffOpt : Option Int}
    {ts : Int} {fuel : Nat} {st : LocalBlockchain}
    (h : blockchain_init E cons diffOpt .absent ts fuel = some st) :
    ∃ g, st.chain = [g] ∧ g.previous_hash = some "0" ∧ g.index = some 1
      ∧ g.data = genesisData ∧ st.stored = Store.snapshot [g]
      ∧ st.consensus = cons ∧ st.difficulty = diffOpt.getD DEFAULT_DIFFICULTY
      ∧ StructOk st
      ∧ ((∀ s, E.verify E.pubPem s (E.signData s) = true) → BuiltOk E st) := by
  obtain ⟨g, hcreate, hchain, hstored, hcons, hdiff, hprev, hindex, hdata⟩ :=
    initFresh_spec (blockchain_init_absent h)
  refine ⟨g, hchain, hprev, hindex, hdata, hstored, hcons, hdiff, ?_, ?_⟩
  · constructor
    · rw [hchain]; rfl
    · rw [hchain]
      show ((g.index == some 1) && true) = true
      rw [hindex]
      simp
  · intro hver
    constructor
    · rw [hchain]
      have hstep := create_block_chainStep hver genesisData_obj hcreate
      show (chainStep E none g && true) = true
      rw [show chainStep E none g = true from hstep]
      rfl
    · intro b hb
      rw [hchain, List.mem_singleton] at hb
      rw [hb]
      exact create_block_builtOk hver genesisData_obj hcreate

/-- Claim C3: appending N payloads through store_evaluation to a
freshly bootstrapped ledger yields a chain of N+1 blocks including
genesis, with every non-genesis block's previous_hash equal to its
predecessor's hash, indices counting 1, 2, ... from the genesis block,
and the genesis block's previous_hash equal to the "0" sentinel. -/
theorem append_builds_linked_chain (E : Crypto) (cons : String) (diffOpt : Option Int)
    (ts0 : Int) (fuel : Nat) (pl : List (Json × Int)) (st0 st : LocalBlockchain)
    (hinit : blockchain_init E cons diffOpt .absent ts0 fuel = some st0)
    (happ : appendPayloads E st0 pl fuel = some st) :
    st.chain.length = pl.length + 1
    ∧ linkedB st.chain = true
    ∧ indexedFrom 1 st.chain = true
    ∧ st.chain.head?.map (fun b => b.previous_hash) = some (some "0") := by
  obtain ⟨g, hchain0, hprev, _, _, _, _, _, hstruct, _⟩ := fresh_start_spec hinit
  obtain ⟨_, _, hlen, t, ht⟩ := appendPayloads_chain pl st0 st fuel happ
  have hstructF := appendPayloads_StructOk pl st0 st fuel happ hstruct
  refine ⟨?_, hstructF.1, hstructF.2, ?_⟩
  · rw [hlen, hchain0]
    simp
    omega
  · rw [ht, hchain0]
    simp [hprev]

/-- Witness for C3 at a concrete PoA bootstrap and a single appended
payload. -/
theorem append_builds_linked_chain_witness :
    ∃ st0 st, blockchain_init ceEnv "poa" none .absent 0 1 = some st0
      ∧ appendPayloads ceEnv st0 [(Json.obj [("k", Json.str "v")], 5)] 1 = some st
      ∧ st.chain.length = 2 ∧ linkedB st.chain = true := by
  refine ⟨(blockchain_init ceEnv "poa" none .absent 0 1).get (by decide),
    (appendPayloads ceEnv ((blockchain_init ceEnv "poa" none .absent 0 1).get (by decide))
      [(Json.obj [("k", Json.str "v")], 5)] 1).get (by decide),
    (Option.some_get _).symm, (Option.some_get _).symm, ?_, ?_⟩
  · exact (append_builds_linked_chain ceEnv "poa" none 0 1 _ _ _
      (Option.some_get _).symm (Option.some_get _).symm).1
  · exact (append_builds_linked_chain ceEnv "poa" none 0 1 _ _ _
      (Option.some_get _).symm (Option.some_get _).symm).2.1

/-- Claim C4: every chain built by the node's own append operations
from a fresh bootstrap validates in full — is_chain_valid returns true
after construction and after every append — and every block of it has
its Merkle root equal to the recomputed hash of its payload, a
signature that verifies against the stored public key and payload, and,
when validated as PoW with positive difficulty, a hash carrying that
many leading zero characters (the hash-equals-recomputed-digest and
linkage invariants are the validator's own checks, contained in
is_chain_valid). -/
theorem append_preserves_validity (E : Crypto)
    (hver : ∀ s, E.verify E.pubPem s (E.signData s) = true)
    (cons : String) (diffOpt : Option Int) (ts0 : Int) (fuel : Nat)
    (pl : List (Json × Int)) (st0 st : LocalBlockchain)
    (hobj : ∀ p ∈ pl, ∃ l, p.1 = Json.obj l)
    (hinit : blockchain_init E cons diffOpt .absent ts0 fuel = some st0)
    (happ : appendPayloads E st0 pl fuel = some st) :
    is_chain_valid E st = true
    ∧ ∀ b ∈ st.chain,
        b.merkle_root = calculate_merkle_root E b.data
        ∧ E.verify (b.public_key.getD "") (dumpsSorted (dataOrEmpty b.data))
            (b.signature.getD "") = true
        ∧ (consensusTag b = "pow" → 0 < b.difficulty.getD 0 →
            pyStartsWith b.hash (zerosOf (b.difficulty.getD 0)) = true) := by
  obtain ⟨g, hchain0, _, _, _, _, _, _, _, hbuiltF⟩ := fresh_start_spec hinit
  have hb := appendPayloads_BuiltOk hver pl st0 st fuel hobj happ (hbuiltF hver)
  obtain ⟨_, _, _, t, ht⟩ := appendPayloads_chain pl st0 st fuel happ
  constructor
  · unfold is_chain_valid is_valid_chain
    have hne : st.chain.isEmpty = false := by
      rw [ht, hchain0]
      rfl
    rw [hne]
    simp only [Bool.false_eq_true, if_false]
    exact hb.1
  · exact fun b hbm => hb.2 b hbm

/-- Witness for C4 at a concrete PoA bootstrap and append. -/
theorem append_preserves_validity_witness :
    ∃ st0 st, blockchain_init ceEnv "poa" none .absent 0 1 = some st0
      ∧ appendPayloads ceEnv st0 [(Json.obj [("k", Json.str "v")], 5)] 1 = some st
      ∧ is_chain_valid ceEnv st = true := by
  refine ⟨(blockchain_init ceEnv "poa" none .absent 0 1).get (by decide),
    (appendPayloads ceEnv ((blockchain_init ceEnv "poa" none .absent 0 1).get (by decide))
      [(Json.obj [("k", Json.str "v")], 5)] 1).get (by decide),
    (Option.some_get _).symm, (Option.some_get _).symm, ?_⟩
  exact (append_preserves_validity ceEnv (fun _ => rfl) "poa" none 0 1 _ _ _
    (by rintro p hp; rw [List.mem_singleton] at hp; subst hp; exact ⟨_, rfl⟩)
    (Option.some_get _).symm (Option.some_get _).symm).1

/-- Claim C5: every block produced in PoW mode has a hash whose textual
form starts with the node's difficulty in zero characters and records
that difficulty; with difficulty 0 the nonce search succeeds on the
first attempt with nonce 0; every block produced in PoA mode records
difficulty 0 and a populated authority_id, the first 16 hex characters
of the digest of the node's public key. -/
theorem consensus_block_shape (E : Crypto) (st : LocalBlockchain) (data : Json)
    (ts : Int) (fuel : Nat) :
    (∀ st' b, create_block E st data ts fuel = some (st', b) →
      (st.consensus = "pow" →
        pyStartsWith b.hash (zerosOf st.difficulty) = true
        ∧ b.difficulty = some st.difficulty)
      ∧ (st.consensus = "poa" →
        b.difficulty = some 0 ∧ b.authority_id = some (authority_id E)
        ∧ authority_id E = (E.sha256 E.pubPem).take 16))
    ∧ (st.consensus = "pow" → st.difficulty = 0 → 1 ≤ fuel →
      ∃ st' b, create_block E st data ts fuel = some (st', b) ∧ b.nonce = some 0) := by
  constructor
  · intro st' b h
    obtain ⟨_, _, _, _, _, _, _, _, _, _, _, _, hmode⟩ := create_block_spec h
    constructor
    · intro hp
      obtain ⟨hdb, _, _, hstart⟩ := hmode.1 hp
      exact ⟨hstart, hdb⟩
    · intro hp
      have hne : st.consensus ≠ "pow" := by rw [hp]; decide
      obtain ⟨hdb, _, hauth, _⟩ := hmode.2 hne
      exact ⟨hdb, hauth, rfl⟩
  · intro hpow hd0 hfuel
    obtain ⟨f, rfl⟩ : ∃ f, fuel = f + 1 := ⟨fuel - 1, by omega⟩
    have hbeq : (st.consensus == "pow") = true := by simp [hpow]
    simp only [create_block, hbeq, if_true]
    rw [hd0, mineLoop, if_pos (pyStartsWith_zerosOf_nonpos _ (le_refl 0))]
    exact ⟨_, _, rfl, rfl⟩

/-- Witness for C5: with difficulty 0 in PoW mode a block is produced
on the first attempt with nonce 0. -/
theorem consensus_block_shape_witness :
    ∃ st' b, create_block ceEnv
      { consensus := "pow", difficulty := 0, chain := [], stored := Store.absent }
      (.obj []) 0 1 = some (st', b) ∧ b.nonce = some 0 :=
  (consensus_block_shape ceEnv
    { consensus := "pow", difficulty := 0, chain := [], stored := Store.absent }
    (.obj []) 0 1).2 rfl rfl (by omega)

/-- Claim C6: the validator dispatches on each block's own recorded
consensus tag and difficulty, so a PoW chain whose difficulty was
raised mid-chain (new blocks only) remains valid as a whole: blocks
appended at the old difficulty and blocks appended after the node's
difficulty changed all validate against their own recorded fields. -/
theorem difficulty_raise_keeps_valid (E : Crypto)
    (hver : ∀ s, E.verify E.pubPem s (E.signData s) = true)
    (diffOpt : Option Int) (d2 : Int) (ts0 : Int) (fuel : Nat)
    (pl1 pl2 : List (Json × Int)) (st0 st1 st2 : LocalBlockchain)
    (hobj1 : ∀ p ∈ pl1, ∃ l, p.1 = Json.obj l)
    (hobj2 : ∀ p ∈ pl2, ∃ l, p.1 = Json.obj l)
    (hinit : blockchain_init E "pow" diffOpt .absent ts0 fuel = some st0)
    (h1 : appendPayloads E st0 pl1 fuel = some st1)
    (h2 : appendPayloads E { st1 with difficulty := d2 } pl2 fuel = some st2) :
    is_chain_valid E st2 = true := by
  obtain ⟨g, hchain0, _, _, _, _, _, _, _, hbuiltF⟩ := fresh_start_spec hinit
  have hb1 := appendPayloads_BuiltOk hver pl1 st0 st1 fuel hobj1 h1 (hbuiltF hver)
  have hb1' : BuiltOk E { st1 with difficulty := d2 } := ⟨hb1.1, hb1.2⟩
  have hb2 := appendPayloads_BuiltOk hver pl2 _ st2 fuel hobj2 h2 hb1'
  obtain ⟨_, _, _, t1, ht1⟩ := appendPayloads_chain pl1 st0 st1 fuel h1
  obtain ⟨_, _, _, t2, ht2⟩ := appendPayloads_chain pl2 _ st2 fuel h2
  unfold is_chain_valid is_valid_chain
  have hne : st2.chain.isEmpty = false := by
    rw [ht2]
    show (st1.chain ++ t2).isEmpty = false
    rw [ht1, hchain0]
    rfl
  rw [hne]
  simp only [Bool.false_eq_true, if_false]
  exact hb2.1

/-- Environment whose digests always carry four leading zeros, so that
PoW mining succeeds immediately at difficulties up to 4. -/
def zEnv : Crypto :=
  { sha256 := fun s => "0000" ++ s
    verify := fun _ _ _ => true
    signData := fun _ => "s"
    pubPem := "P" }

/-- Witness for C6: a PoW chain built at difficulty 2, then extended
after raising the difficulty to 4, validates as a whole. -/
theorem difficulty_raise_keeps_valid_witness :
    ∃ st0 st1 st2, blockchain_init zEnv "pow" (some 2) .absent 0 1 = some st0
      ∧ appendPayloads zEnv st0 [(Json.obj [("a", Json.num 1)], 1)] 1 = some st1
      ∧ appendPayloads zEnv { st1 with difficulty := 4 }
          [(Json.obj [("b", Json.num 2)], 2)] 1 = some st2
      ∧ is_chain_valid zEnv st2 = true := by
  refine ⟨(blockchain_init zEnv "pow" (some 2) .absent 0 1).get (by decide),
    (appendPayloads zEnv ((blockchain_init zEnv "pow" (some 2) .absent 0 1).get (by decide))
      [(Json.obj [("a", Json.num 1)], 1)] 1).get (by decide),
    (appendPayloads zEnv
      { (appendPayloads zEnv ((blockchain_init zEnv "pow" (some 2) .absent 0 1).get
          (by decide)) [(Json.obj [("a", Json.num 1)], 1)] 1).get (by decide) with
          difficulty := 4 }
      [(Json.obj [("b", Json.num 2)], 2)] 1).get (by decide),
    (Option.some_get _).symm, (Option.some_get _).symm, (Option.some_get _).symm, ?_⟩
  exact difficulty_raise_keeps_valid zEnv (fun _ => rfl) (some 2) 4 0 1 _ _ _ _ _
    (by rintro p hp; rw [List.mem_singleton] at hp; subst hp; exact ⟨_, rfl⟩)
    (by rintro p hp; rw [List.mem_singleton] at hp; subst hp; exact ⟨_, rfl⟩)
    (Option.some_get _).symm (Option.some_get _).symm (Option.some_get _).symm

lemma initFresh_bootstrap {E : Crypto} {st : LocalBlockchain} {ts : Int} {fuel : Nat}
    {st' : LocalBlockchain} (h : initFresh E st ts fuel = some st') :
    st'.chain.length = 1 ∧ st'.stored = Store.snapshot st'.chain := by
  obtain ⟨g, _, hchain, hstored, _, _, _, _, _⟩ := initFresh_spec h
  rw [hchain, hstored]
  exact ⟨rfl, rfl⟩

lemma blockchain_init_emptyLoad {E : Crypto} {cons : String} {diffOpt : Option Int}
    {ts : Int} {fuel : Nat} {st : LocalBlockchain} (store : Store)
    (hl : loadedChain store = [])
    (h : blockchain_init E cons diffOpt store ts fuel = some st) :
    initFresh E ({ consensus := cons,
                   difficulty := diffOpt.getD DEFAULT_DIFFICULTY,
                   chain := [],
                   stored := store } : LocalBlockchain) ts fuel = some st := by
  unfold blockchain_init at h
  by_cases hc : cons = "pow" ∨ cons = "poa"
  · rw [if_pos hc] at h
    simpa [hl] using h
  · rw [if_neg hc] at h
    exact absurd h (by simp)

/-- Claim C8: at startup, an absent store, an unparseable store, and a
stored chain that fails full validation (including the empty chain) are
all discarded in favour of a freshly bootstrapped genesis-only chain of
length 1 that is immediately persisted; only a present, parseable,
fully valid stored chain is adopted as the node's chain (and the store
is then left as it was). -/
theorem startup_bootstrap_spec (E : Crypto) (cons : String) (diffOpt : Option Int)
    (ts : Int) (fuel : Nat) :
    (∀ st, blockchain_init E cons diffOpt .absent ts fuel = some st →
      st.chain.length = 1 ∧ st.stored = Store.snapshot st.chain)
    ∧ (∀ st, blockchain_init E cons diffOpt .corrupt ts fuel = some st →
      st.chain.length = 1 ∧ st.stored = Store.snapshot st.chain)
    ∧ (∀ c st, is_valid_chain E c = false →
      blockchain_init E cons diffOpt (.snapshot c) ts fuel = some st →
      st.chain.length = 1 ∧ st.stored = Store.snapshot st.chain)
    ∧ (∀ c st, is_valid_chain E c = true →
      blockchain_init E cons diffOpt (.snapshot c) ts fuel = some st →
      st.chain = c ∧ st.stored = Store.snapshot c) := by
  refine ⟨?_, ?_, ?_, ?_⟩
  · intro st h
    exact initFresh_bootstrap (blockchain_init_emptyLoad Store.absent rfl h)
  · intro st h
    exact initFresh_bootstrap (blockchain_init_emptyLoad Store.corrupt rfl h)
  · intro c st hinval h
    by_cases hce : c = []
    · subst hce
      exact initFresh_bootstrap (blockchain_init_emptyLoad (Store.snapshot []) rfl h)
    · unfold blockchain_init at h
      by_cases hc : cons = "pow" ∨ cons = "poa"
      · rw [if_pos hc] at h
        have hne : c.isEmpty = false := by simp [hce]
        simp only [loadedChain, hne, Bool.false_eq_true, if_false, hinval] at h
        exact initFresh_bootstrap h
      · rw [if_neg hc] at h
        exact absurd h (by simp)
  · intro c st hvalid h
    have hce : c ≠ [] := by
      intro hc
      subst hc
      simp [is_valid_chain] at hvalid
    unfold blockchain_init at h
    by_cases hc : cons = "pow" ∨ cons = "poa"
    · rw [if_pos hc] at h
      have hne : c.isEmpty = false := by simp [hce]
      simp only [loadedChain, hne, Bool.false_eq_true, if_false, hvalid,
        eq_self_iff_true, if_true] at h
      rw [← Option.some.inj h]
      exact ⟨rfl, rfl⟩
    · rw [if_neg hc] at h
      exact absurd h (by simp)

/-- Witness for C8: a PoA node started with no persisted store
bootstraps a persisted genesis-only chain. -/
theorem startup_bootstrap_spec_witness :
    ∃ st, blockchain_init ceEnv "poa" none .absent 0 1 = some st
      ∧ st.chain.length = 1 ∧ st.stored = Store.snapshot st.chain := by
  refine ⟨(blockchain_init ceEnv "poa" none .absent 0 1).get (by decide),
    (Option.some_get _).symm, ?_⟩
  exact (startup_bootstrap_spec ceEnv "poa" none 0 1).1 _ (Option.some_get _).symm

end LocalChain
